import Mathlib

/-!
# Verification of the Istanbul consensus message core and governance overlay

Shallow embedding of `consensus/istanbul/core/types.go` (message envelope,
RLP wire codec, `PayloadNoSig`, `FromPayload`, `GetView`, `State.Cmp`) and of
`GovModule.EffectiveParamSet`. Bytes are modelled as `List Nat` with every
element `< 256`; Go's `uint64` values are `Nat` with explicit `< 2^64`
bounds where they matter. The RLP layer models the subset of the Kaia RLP
library exercised by these functions: byte-string and list items, canonical
big-endian integer contents, and the canonicity checks the Go decoder
enforces (single-byte strings below `0x80` must be encoded as themselves,
size fields carry no leading zero, long forms encode lengths of at least 56,
`DecodeBytes` rejects trailing input).
-/

/-- Minimal big-endian byte representation of `n` (empty for `0`), as the Go
RLP library writes unsigned integers and length fields. Structural fuel
(`fuel ≥ n` suffices) keeps the definition kernel-evaluable. -/
def beBytesF : Nat → Nat → List Nat
  | 0, _ => []
  | fuel + 1, n => if n = 0 then [] else beBytesF fuel (n / 256) ++ [n % 256]

/-- Minimal big-endian bytes of `n`. -/
def beBytes (n : Nat) : List Nat :=
  beBytesF n n

/-- Big-endian value of a byte list. -/
def fromBE (bs : List Nat) : Nat :=
  bs.foldl (fun acc b => acc * 256 + b) 0

/-- True exactly when `s` is a single byte below `0x80`, which RLP encodes
as itself with no header. -/
def isSmallByte (s : List Nat) : Bool :=
  match s with
  | [y] => decide (y < 0x80)
  | _ => false

/-- RLP encoding of a byte string. -/
def rlpStr (s : List Nat) : List Nat :=
  if isSmallByte s then s
  else if s.length ≤ 55 then (0x80 + s.length) :: s
  else (0xb7 + (beBytes s.length).length) :: (beBytes s.length ++ s)

/-- RLP list header prepended to an already-encoded payload. -/
def rlpList (p : List Nat) : List Nat :=
  if p.length ≤ 55 then (0xc0 + p.length) :: p
  else (0xf7 + (beBytes p.length).length) :: (beBytes p.length ++ p)

/-- Shared long-form payload reader: `ll` size bytes, then the payload.
Rejects a leading zero in the size and sizes below 56, as the Go RLP
stream does (`ErrCanonSize`). -/
def parseLong (ll : Nat) (r : List Nat) : Option (List Nat × List Nat) :=
  if ll ≤ r.length then
    if (r.take ll).head? = some 0 then none
    else
      let n := fromBE (r.take ll)
      if n < 56 then none
      else if n ≤ (r.drop ll).length then
        some ((r.drop ll).take n, (r.drop ll).drop n)
      else none
  else none

/-- Read one RLP byte-string item off the front of `input`, returning its
content and the remaining bytes. Mirrors the Go RLP stream's string kind
with its canonicity checks; list headers are rejected (`expected string`). -/
def parseStr (input : List Nat) : Option (List Nat × List Nat) :=
  match input with
  | [] => none
  | b :: r =>
    if b < 0x80 then some ([b], r)
    else if b ≤ 0xb7 then
      let n := b - 0x80
      if n ≤ r.length then
        if isSmallByte (r.take n) then none
        else some (r.take n, r.drop n)
      else none
    else if b ≤ 0xbf then parseLong (b - 0xb7) r
    else none

/-- Read one RLP list item off the front of `input`, returning its payload
and the remaining bytes. String headers are rejected (`expected list`). -/
def parseList (input : List Nat) : Option (List Nat × List Nat) :=
  match input with
  | [] => none
  | b :: r =>
    if b < 0xc0 then none
    else if b ≤ 0xf7 then
      let n := b - 0xc0
      if n ≤ r.length then some (r.take n, r.drop n) else none
    else parseLong (b - 0xf7) r

/-- Decode an unsigned integer from the content bytes of a string item:
no leading zero (`ErrCanonInt`), at most 8 bytes (`uint64` overflow). -/
def parseUintContent (c : List Nat) : Option Nat :=
  if c.head? = some 0 then none
  else if c.length ≤ 8 then some (fromBE c) else none

/-- The consensus message envelope (`message` in types.go). `Hash` is a
32-byte `common.Hash`, `Code` a `uint64`, `Address` a 20-byte address, the
remaining fields raw byte strings. -/
structure Message where
  Hash : List Nat
  Code : Nat
  Msg : List Nat
  Address : List Nat
  Signature : List Nat
  CommittedSeal : List Nat
deriving DecidableEq

/-- All elements are bytes. -/
def ValidBytes (l : List Nat) : Prop :=
  ∀ x ∈ l, x < 256

instance (l : List Nat) : Decidable (ValidBytes l) := by
  unfold ValidBytes; infer_instance

/-- Well-formedness of an envelope as the Go types give it: a 32-byte hash,
a `uint64` code, a 20-byte address, and byte-valued slices whose lengths fit
the RLP `uint64` size fields. -/
def ValidMessage (m : Message) : Prop :=
  m.Hash.length = 32 ∧ ValidBytes m.Hash ∧
  m.Code < 2 ^ 64 ∧
  ValidBytes m.Msg ∧ m.Msg.length < 2 ^ 64 ∧
  m.Address.length = 20 ∧ ValidBytes m.Address ∧
  ValidBytes m.Signature ∧ m.Signature.length < 2 ^ 64 ∧
  ValidBytes m.CommittedSeal ∧ m.CommittedSeal.length < 2 ^ 64

instance (m : Message) : Decidable (ValidMessage m) := by
  unfold ValidMessage; infer_instance

/-- Concatenated field encodings, in the order EncodeRLP lists them:
`Hash, Code, Msg, Address, Signature, CommittedSeal`. -/
def encodeFields (m : Message) : List Nat :=
  rlpStr m.Hash ++ (rlpStr (beBytes m.Code) ++ (rlpStr m.Msg ++
    (rlpStr m.Address ++ (rlpStr m.Signature ++ rlpStr m.CommittedSeal))))

/-- `EncodeRLP`: the bytes `rlp.Encode(w, []interface{...})` writes — one
RLP list holding the six fields in fixed order. -/
def EncodeRLP (m : Message) : List Nat :=
  rlpList (encodeFields m)

/-- Decode the six struct fields from a list payload, mirroring the
anonymous struct decode inside `DecodeRLP`: fields in order, exact sizes
for `Hash` and `Address`, canonical `uint64` for `Code`, and no elements
left over. -/
def decodeFields (p : List Nat) : Option Message := do
  let (hash, p1) ← parseStr p
  guard (hash.length = 32)
  let (codeB, p2) ← parseStr p1
  let code ← parseUintContent codeB
  let (msg, p3) ← parseStr p2
  let (addr, p4) ← parseStr p3
  guard (addr.length = 20)
  let (sig, p5) ← parseStr p4
  let (cs, p6) ← parseStr p5
  guard (p6 = [])
  pure ⟨hash, code, msg, addr, sig, cs⟩

/-- `DecodeRLP`: read one envelope value from the front of a byte stream,
returning it with the unread remainder. -/
def DecodeRLP (b : List Nat) : Option (Message × List Nat) :=
  match parseList b with
  | none => none
  | some (payload, rest) =>
    match decodeFields payload with
    | none => none
    | some m => some (m, rest)

/-- `rlp.DecodeBytes` over an envelope: one value, no trailing input. -/
def decodeMsgBytes (b : List Nat) : Option Message :=
  match DecodeRLP b with
  | some (m, rest) => if rest = [] then some m else none
  | none => none

/-- `Payload`: `rlp.EncodeToBytes(m)`. -/
def Payload (m : Message) : List Nat :=
  EncodeRLP m

/-- `PayloadNoSig`: re-encode a fresh envelope carrying `m`'s fields with
`Signature` set to the empty byte string; `CommittedSeal` is carried over
unchanged. -/
def PayloadNoSig (m : Message) : List Nat :=
  EncodeRLP
    { Hash := m.Hash, Code := m.Code, Msg := m.Msg, Address := m.Address,
      Signature := [], CommittedSeal := m.CommittedSeal }

/-- State-passing form of `PayloadNoSig` for the pointer receiver: the Go
method only reads `m`'s fields into a fresh struct, so the receiver after
the call is returned alongside the bytes. -/
def PayloadNoSigSt (m : Message) : List Nat × Message :=
  (EncodeRLP
    { Hash := m.Hash, Code := m.Code, Msg := m.Msg, Address := m.Address,
      Signature := [], CommittedSeal := m.CommittedSeal }, m)

/-- Error returned by an injected verification callback (`validateFn`'s
`error` result), distinct from the core's own error values. -/
structure VerifyError where
  code : Nat
deriving DecidableEq

/-- The core's error outcomes: RLP decode failures, `errInvalidMessage`,
`errInvalidSigner`, and a propagated callback error. -/
inductive CoreErr where
  | decodeError : CoreErr
  | errInvalidMessage : CoreErr
  | errInvalidSigner : CoreErr
  | verifyError : VerifyError → CoreErr
deriving DecidableEq

instance {ε α : Type} [DecidableEq ε] [DecidableEq α] : DecidableEq (Except ε α) := fun x y =>
  match x, y with
  | .ok a, .ok b =>
    match decEq a b with
    | .isTrue h => .isTrue (h ▸ rfl)
    | .isFalse h => .isFalse fun hc => h (Except.ok.inj hc)
  | .error a, .error b =>
    match decEq a b with
    | .isTrue h => .isTrue (h ▸ rfl)
    | .isFalse h => .isFalse fun hc => h (Except.error.inj hc)
  | .ok _, .error _ => .isFalse fun hc => Except.noConfusion hc
  | .error _, .ok _ => .isFalse fun hc => Except.noConfusion hc

/-- `FromPayload`, state-passing on the receiver: decode `b` into the
receiver (overwriting it on successful decode, leaving `m0` otherwise);
then, when a `validateFn` is supplied, recover the signer over
`PayloadNoSig` and fail with `errInvalidSigner` when the recovered address
differs (byte-wise) from the decoded `Address`. Returns the Go method's
error result together with the receiver's final state. -/
def FromPayload (m0 : Message) (b : List Nat)
    (validateFn : Option (List Nat → List Nat → Except VerifyError (List Nat))) :
    Except CoreErr Unit × Message :=
  match decodeMsgBytes b with
  | none => (.error .decodeError, m0)
  | some m =>
    match validateFn with
    | none => (.ok (), m)
    | some f =>
      match f (PayloadNoSig m) m.Signature with
      | .error e => (.error (.verifyError e), m)
      | .ok signerAddr =>
        if signerAddr = m.Address then (.ok (), m)
        else (.error .errInvalidSigner, m)

/-- Message codes, as the `const` block declares them. -/
def msgPreprepare : Nat := 0

def msgPrepare : Nat := 1

def msgCommit : Nat := 2

def msgRoundChange : Nat := 3

/-- Modelled from the spec: `istanbul.View`, the pair
`(sequence, round)` of non-negative integers identifying a consensus
instance (the `istanbul` package is not part of the excerpt). -/
structure View where
  Sequence : Nat
  Round : Nat
deriving DecidableEq

/-- RLP encoding of a view: a two-element list of its integers. -/
def encodeView (v : View) : List Nat :=
  rlpList (rlpStr (beBytes v.Sequence) ++ rlpStr (beBytes v.Round))

/-- Read one encoded view off the front of `input`. -/
def parseView (input : List Nat) : Option (View × List Nat) := do
  let (vp, rest) ← parseList input
  let (sB, vp1) ← parseStr vp
  let seq ← parseUintContent sB
  let (rB, vp2) ← parseStr vp1
  let rnd ← parseUintContent rB
  guard (vp2 = [])
  pure (⟨seq, rnd⟩, rest)

/-- Modelled from the spec: `istanbul.Preprepare`, the Proposal-kind inner
payload `{view, block-candidate}`; the candidate is kept opaque. -/
structure Preprepare where
  View : View
  Proposal : List Nat
deriving DecidableEq

/-- Modelled from the spec: `istanbul.Subject`, the
Prepare/Commit/RoundChange inner payload `{view, digest}` with a 32-byte
digest. -/
structure Subject where
  View : View
  Digest : List Nat
deriving DecidableEq

/-- RLP encoding of a `Preprepare`. -/
def encodePreprepare (p : Preprepare) : List Nat :=
  rlpList (encodeView p.View ++ rlpStr p.Proposal)

/-- `rlp.DecodeBytes` of a `Preprepare` (one value, no trailing input). -/
def decodePreprepare (b : List Nat) : Option Preprepare := do
  let (pl, rest) ← parseList b
  guard (rest = [])
  let (v, pl1) ← parseView pl
  let (prop, pl2) ← parseStr pl1
  guard (pl2 = [])
  pure ⟨v, prop⟩

/-- RLP encoding of a `Subject`. -/
def encodeSubject (s : Subject) : List Nat :=
  rlpList (encodeView s.View ++ rlpStr s.Digest)

/-- `rlp.DecodeBytes` of a `Subject` (one value, no trailing input, digest
exactly 32 bytes as `common.Hash` requires). -/
def decodeSubject (b : List Nat) : Option Subject := do
  let (pl, rest) ← parseList b
  guard (rest = [])
  let (v, pl1) ← parseView pl
  let (dig, pl2) ← parseStr pl1
  guard (dig.length = 32)
  guard (pl2 = [])
  pure ⟨v, dig⟩

/-- Well-formed view: both integers fit `uint64`. -/
def ValidView (v : View) : Prop :=
  v.Sequence < 2 ^ 64 ∧ v.Round < 2 ^ 64

instance (v : View) : Decidable (ValidView v) := by
  unfold ValidView; infer_instance

/-- Well-formed proposal payload. -/
def ValidPreprepare (p : Preprepare) : Prop :=
  ValidView p.View ∧ ValidBytes p.Proposal ∧ p.Proposal.length < 2 ^ 64

instance (p : Preprepare) : Decidable (ValidPreprepare p) := by
  unfold ValidPreprepare; infer_instance

/-- Well-formed subject payload. -/
def ValidSubject (s : Subject) : Prop :=
  ValidView s.View ∧ ValidBytes s.Digest ∧ s.Digest.length = 32

instance (s : Subject) : Decidable (ValidSubject s) := by
  unfold ValidSubject; infer_instance

/-- `GetView`: dispatch on `Code`; a Preprepare decodes `Msg` as a
`Preprepare` and yields its view, Prepare/Commit/RoundChange decode `Msg`
as a `Subject` and yield its view, any other code fails with
`errInvalidMessage`; inner decode failures propagate as decode errors. -/
def GetView (m : Message) : Except CoreErr View :=
  if m.Code = msgPreprepare then
    match decodePreprepare m.Msg with
    | none => .error .decodeError
    | some p => .ok p.View
  else if m.Code = msgPrepare ∨ m.Code = msgCommit ∨ m.Code = msgRoundChange then
    match decodeSubject m.Msg with
    | none => .error .decodeError
    | some s => .ok s.View
  else .error .errInvalidMessage

/-- `State`, a `uint64` enumeration. -/
abbrev State := Nat

def StateAcceptRequest : State := 0

def StatePreprepared : State := 1

def StatePrepared : State := 2

def StateCommitted : State := 3

/-- `State.Cmp`: -1 when `s` precedes `y`, +1 when it follows, 0 on
equality, comparing the underlying `uint64` values. -/
def State.Cmp (s y : State) : Int :=
  if s < y then -1
  else if s > y then 1
  else 0

/-- The four phases in their declared order. -/
def phases : Fin 4 → State
  | 0 => StateAcceptRequest
  | 1 => StatePreprepared
  | 2 => StatePrepared
  | 3 => StateCommitted

/-- Modelled from the spec and call shape: `gov.ParamSet` as a total
assignment of parameter keys to values (the `gov` package is not part of
the excerpt). -/
def ParamSet : Type :=
  Nat → Nat

/-- `ParamSet.Set`: overwrite one key. -/
def ParamSet.Set (ps : ParamSet) (k v : Nat) : ParamSet :=
  fun x => if x = k then v else ps x

/-- Modelled from the spec: the default governance parameter set; its
concrete contents are outside the excerpt, so a fixed assignment stands in
for them. -/
def GetDefaultGovernanceParamSet : ParamSet :=
  fun _ => 0

/-- Modelled from the spec: the header-governance submodule, exposing
`EffectiveParamsPartial(blockNum)` as a finite key/value list
(`PartialParams` here). -/
structure HgmModule where
  PartialParams : Nat → List (Nat × Nat)

/-- Modelled from the spec: the contract-governance submodule, same
interface as the header one. -/
structure CgmModule where
  PartialParams : Nat → List (Nat × Nat)

/-- The governance module with its two submodules and the Kore hard-fork
predicate. -/
structure GovModule where
  Hgm : HgmModule
  Cgm : CgmModule
  isKoreHF : Nat → Bool

/-- Overlay a key/value list onto a parameter set, left to right, as the
`for k, v := range` / `ret.Set(k, v)` loop does. -/
def overlayParams (ps : ParamSet) (kvs : List (Nat × Nat)) : ParamSet :=
  kvs.foldl (fun acc kv => acc.Set kv.1 kv.2) ps

/-- `EffectiveParamSet`: start from the defaults, overlay the
header-governance partial parameters, and only under the Kore hard fork
additionally overlay the contract-governance partial parameters. -/
def GovModule.EffectiveParamSet (m : GovModule) (blockNum : Nat) : ParamSet :=
  let ret := GetDefaultGovernanceParamSet
  let p1 := m.Hgm.PartialParams blockNum
  let ret1 := p1.foldl (fun acc kv => acc.Set kv.1 kv.2) ret
  if m.isKoreHF blockNum then
    let p2 := m.Cgm.PartialParams blockNum
    p2.foldl (fun acc kv => acc.Set kv.1 kv.2) ret1
  else ret1

/-- Sample well-formed envelope used for concrete checks. -/
def mex : Message :=
  ⟨List.replicate 32 1, 1, [0xab], List.replicate 20 2, [5, 6], [7]⟩

/-- Zeroed receiver used to observe decode overwriting. -/
def zeroMsg : Message :=
  ⟨[], 0, [], [], [], []⟩

/-- Callback recovering a fixed address distinct from `mex.Address`. -/
def badVerify : List Nat → List Nat → Except VerifyError (List Nat) :=
  fun _ _ => .ok (List.replicate 20 9)

/-- Envelope with empty committed seal, otherwise equal to `mseal1`. -/
def mseal0 : Message :=
  ⟨List.replicate 32 0, 0, [], List.replicate 20 0, [], []⟩

/-- Envelope with a one-byte committed seal, otherwise equal to `mseal0`. -/
def mseal1 : Message :=
  ⟨List.replicate 32 0, 0, [], List.replicate 20 0, [], [1]⟩

/-- Envelope with a one-byte signature, otherwise equal to `msig1`. -/
def msig0 : Message :=
  ⟨List.replicate 32 0, 0, [], List.replicate 20 0, [3], []⟩

/-- Envelope with a two-byte signature, otherwise equal to `msig0`. -/
def msig1 : Message :=
  ⟨List.replicate 32 0, 0, [], List.replicate 20 0, [4, 4], []⟩

/-- Sample view. -/
def vex : View :=
  ⟨10, 3⟩

/-- Sample proposal payload. -/
def pex : Preprepare :=
  ⟨vex, [1, 2, 3]⟩

/-- Sample subject payload. -/
def sex : Subject :=
  ⟨vex, List.replicate 32 5⟩

/-- Sample 32-byte hash. -/
def hash0 : List Nat :=
  List.replicate 32 0

/-- Sample 20-byte address. -/
def addr0 : List Nat :=
  List.replicate 20 0

/-- Sample governance module whose Kore fork activates at block 100. -/
def gm0 : GovModule :=
  ⟨⟨fun _ => [(1, 5)]⟩, ⟨fun _ => [(2, 7)]⟩, fun n => decide (100 ≤ n)⟩

/-! ## Big-endian integer bytes -/

theorem beBytesF_zero (fuel : Nat) : beBytesF fuel 0 = [] := by
  cases fuel <;> simp [beBytesF]

theorem beBytesF_congr : ∀ f1 f2 n : Nat, n ≤ f1 → n ≤ f2 →
    beBytesF f1 n = beBytesF f2 n := by
  intro f1
  induction f1 with
  | zero =>
    intro f2 n h1 h2
    have hn : n = 0 := by omega
    subst hn
    rw [beBytesF_zero, beBytesF_zero]
  | succ f ih =>
    intro f2 n h1 h2
    rcases Nat.eq_zero_or_pos n with rfl | hn
    · rw [beBytesF_zero, beBytesF_zero]
    · obtain ⟨f2p, rfl⟩ : ∃ k, f2 = k + 1 := ⟨f2 - 1, by omega⟩
      have hne : n ≠ 0 := by omega
      simp only [beBytesF, hne, if_false]
      have hd : n / 256 < n := Nat.div_lt_self hn (by norm_num)
      congr 1
      exact ih f2p (n / 256) (by omega) (by omega)

theorem beBytes_eq (n : Nat) :
    beBytes n = if n = 0 then [] else beBytes (n / 256) ++ [n % 256] := by
  rcases Nat.eq_zero_or_pos n with rfl | hn
  · rfl
  · have hne : n ≠ 0 := by omega
    rw [if_neg hne]
    unfold beBytes
    obtain ⟨k, rfl⟩ : ∃ k, n = k + 1 := ⟨n - 1, by omega⟩
    simp only [beBytesF, hne, if_false]
    have hd : (k + 1) / 256 < k + 1 := Nat.div_lt_self hn (by norm_num)
    rw [beBytesF_congr k ((k + 1) / 256) ((k + 1) / 256) (by omega) (le_refl _)]

theorem fromBE_cons (b : Nat) (t : List Nat) :
    fromBE (b :: t) = b * 256 ^ t.length + fromBE t := by
  have key : ∀ (u : List Nat) (a : Nat),
      u.foldl (fun acc x => acc * 256 + x) a = a * 256 ^ u.length + fromBE u := by
    intro u
    induction u with
    | nil => intro a; simp [fromBE]
    | cons x u ih =>
      intro a
      have hx : fromBE (x :: u) = x * 256 ^ u.length + fromBE u := by
        show List.foldl _ _ _ = _
        simp only [List.foldl_cons]
        rw [show (0 * 256 + x) = x by omega, ih x]
      simp only [List.foldl_cons, List.length_cons]
      rw [ih (a * 256 + x), hx]
      ring
  show List.foldl _ _ _ = _
  simp only [List.foldl_cons]
  rw [show (0 * 256 + b) = b by omega, key t b]

theorem fromBE_append_single (xs : List Nat) (b : Nat) :
    fromBE (xs ++ [b]) = fromBE xs * 256 + b := by
  simp [fromBE, List.foldl_append]

theorem fromBE_beBytes : ∀ n : Nat, fromBE (beBytes n) = n := by
  intro n
  induction n using Nat.strong_induction_on with
  | _ n ih =>
    rw [beBytes_eq n]
    rcases Nat.eq_zero_or_pos n with rfl | hn
    · simp [fromBE]
    · have hne : n ≠ 0 := by omega
      have hd : n / 256 < n := Nat.div_lt_self hn (by norm_num)
      rw [if_neg hne, fromBE_append_single, ih (n / 256) hd]
      omega

theorem beBytes_ne_nil {n : Nat} (h : 0 < n) : beBytes n ≠ [] := by
  rw [beBytes_eq n, if_neg (by omega)]
  simp

theorem beBytes_head?_ne_zero : ∀ n : Nat, 0 < n → (beBytes n).head? ≠ some 0 := by
  intro n
  induction n using Nat.strong_induction_on with
  | _ n ih =>
    intro hn
    rw [beBytes_eq n, if_neg (by omega)]
    rcases Nat.eq_zero_or_pos (n / 256) with hq | hq
    · have hlt : n < 256 := by omega
      rw [hq]
      have h0 : beBytes 0 = [] := rfl
      simp only [h0, List.nil_append, List.head?_cons]
      have : n % 256 = n := Nat.mod_eq_of_lt hlt
      rw [this]
      intro hc
      exact absurd (Option.some.inj hc) (by omega)
    · have hd : n / 256 < n := Nat.div_lt_self hn (by norm_num)
      have hih := ih (n / 256) hd hq
      cases hb : beBytes (n / 256) with
      | nil => exact absurd hb (beBytes_ne_nil hq)
      | cons x xs =>
        rw [hb] at hih
        simp only [List.cons_append, List.head?_cons]
        simpa using hih

theorem beBytes_lt_256 : ∀ n : Nat, ∀ x ∈ beBytes n, x < 256 := by
  intro n
  induction n using Nat.strong_induction_on with
  | _ n ih =>
    intro x hx
    rw [beBytes_eq n] at hx
    by_cases hn : n = 0
    · simp [hn] at hx
    · rw [if_neg hn] at hx
      rcases List.mem_append.mp hx with h1 | h2
      · exact ih (n / 256) (Nat.div_lt_self (by omega) (by norm_num)) x h1
      · have : x = n % 256 := by simpa using h2
        omega

theorem beBytes_length_le : ∀ n k : Nat, n < 256 ^ k → (beBytes n).length ≤ k := by
  intro n
  induction n using Nat.strong_induction_on with
  | _ n ih =>
    intro k hk
    by_cases hn : n = 0
    · subst hn; simp [beBytes, beBytesF]
    · rw [beBytes_eq n, if_neg hn]
      obtain ⟨k1, rfl⟩ : ∃ k1, k = k1 + 1 := by
        rcases k with _ | k1
        · exfalso; simp at hk; omega
        · exact ⟨k1, rfl⟩
      have hq : n / 256 < 256 ^ k1 := by
        rw [Nat.div_lt_iff_lt_mul (by norm_num : 0 < 256)]
        calc n < 256 ^ (k1 + 1) := hk
          _ = 256 ^ k1 * 256 := by ring
      have hih := ih (n / 256) (Nat.div_lt_self (by omega) (by norm_num)) k1 hq
      simp only [List.length_append, List.length_cons, List.length_nil]
      omega

theorem fromBE_lt : ∀ bs : List Nat, (∀ x ∈ bs, x < 256) → fromBE bs < 256 ^ bs.length := by
  intro bs
  induction bs with
  | nil => intro _; simp [fromBE]
  | cons b t ih =>
    intro hv
    rw [fromBE_cons]
    have hb : b < 256 := hv b (by simp)
    have ht := ih (fun x hx => hv x (by simp [hx]))
    simp only [List.length_cons]
    calc b * 256 ^ t.length + fromBE t < b * 256 ^ t.length + 256 ^ t.length := by omega
      _ = (b + 1) * 256 ^ t.length := by ring
      _ ≤ 256 * 256 ^ t.length := Nat.mul_le_mul_right _ (by omega)
      _ = 256 ^ (t.length + 1) := by ring

theorem fromBE_pos (b : Nat) (t : List Nat) (hb : b ≠ 0) : 0 < fromBE (b :: t) := by
  rw [fromBE_cons]
  have hp : 0 < 256 ^ t.length := pow_pos (by norm_num) t.length
  have h1 : 1 ≤ b := by omega
  have : 256 ^ t.length ≤ b * 256 ^ t.length := Nat.le_mul_of_pos_left _ (by omega)
  omega

theorem beBytes_fromBE : ∀ bs : List Nat, (∀ x ∈ bs, x < 256) → bs.head? ≠ some 0 →
    beBytes (fromBE bs) = bs := by
  intro bs
  induction bs using List.reverseRecOn with
  | nil => intro _ _; simp [fromBE, beBytes, beBytesF]
  | append_singleton xs b ih =>
    intro hv hh
    rw [fromBE_append_single]
    have hb : b < 256 := hv b (by simp)
    cases xs with
    | nil =>
      have hb0 : b ≠ 0 := by
        intro hc; subst hc; simp at hh
      simp only [fromBE, List.foldl_nil]
      rw [show (0 : Nat) * 256 + b = b by omega, beBytes_eq b, if_neg hb0,
        Nat.div_eq_of_lt hb, Nat.mod_eq_of_lt hb]
      simp [beBytes, beBytesF]
    | cons y t =>
      have hy : y ≠ 0 := by
        intro hc; subst hc; simp at hh
      have hA : 0 < fromBE (y :: t) := fromBE_pos y t hy
      have hdiv : (fromBE (y :: t) * 256 + b) / 256 = fromBE (y :: t) := by omega
      have hmod : (fromBE (y :: t) * 256 + b) % 256 = b := by omega
      rw [beBytes_eq, if_neg (by omega), hdiv, hmod,
        ih (fun x hx => hv x (by simp at hx ⊢; tauto)) (by simpa using hy)]

theorem beBytes_lt_pow (n : Nat) : n < 256 ^ (beBytes n).length := by
  have := fromBE_lt (beBytes n) (beBytes_lt_256 n)
  rwa [fromBE_beBytes] at this

/-! ## RLP item parsing -/

theorem isSmallByte_iff (s : List Nat) : isSmallByte s = true ↔ ∃ y, s = [y] ∧ y < 0x80 := by
  rcases s with _ | ⟨y, _ | ⟨z, t⟩⟩ <;> simp [isSmallByte]

theorem isSmallByte_false_of_long {s : List Nat} (h : s.length ≠ 1) : isSmallByte s = false := by
  rcases hs : isSmallByte s with _ | _
  · rfl
  · obtain ⟨y, rfl, _⟩ := (isSmallByte_iff s).mp hs
    simp at h

theorem parseLong_complete (p rest : List Nat) (h : 56 ≤ p.length) :
    parseLong ((beBytes p.length).length) (beBytes p.length ++ (p ++ rest)) = some (p, rest) := by
  have hpos : 0 < p.length := by omega
  unfold parseLong
  rw [List.take_left, List.drop_left]
  rw [if_pos (by simp), if_neg (beBytes_head?_ne_zero p.length hpos), fromBE_beBytes]
  rw [if_neg (by omega), if_pos (by simp), List.take_left, List.drop_left]

theorem parseLong_sound (ll : Nat) (r s rest : List Nat)
    (hv : ∀ x ∈ r, x < 256) (h : parseLong ll r = some (s, rest)) :
    r = beBytes s.length ++ (s ++ rest) ∧ (beBytes s.length).length = ll ∧ 56 ≤ s.length := by
  simp only [parseLong] at h
  split_ifs at h with h1 h2 h3 h4
  simp only [Option.some.injEq, Prod.mk.injEq] at h
  obtain ⟨rfl, rfl⟩ := h
  have hlen : ((r.drop ll).take (fromBE (r.take ll))).length = fromBE (r.take ll) := by
    rw [List.length_take]
    exact Nat.min_eq_left h4
  have htake : beBytes (fromBE (r.take ll)) = r.take ll :=
    beBytes_fromBE (r.take ll) (fun x hx => hv x (List.take_subset ll r hx)) h2
  refine ⟨?_, ?_, ?_⟩
  · rw [hlen, htake]
    conv_lhs => rw [← List.take_append_drop ll r]
    congr 1
    exact (List.take_append_drop _ _).symm
  · rw [hlen, htake, List.length_take]
    exact Nat.min_eq_left h1
  · rw [hlen]; omega

theorem parseStr_complete (s rest : List Nat) (hlen : s.length < 256 ^ 8) :
    parseStr (rlpStr s ++ rest) = some (s, rest) := by
  by_cases hsb : isSmallByte s = true
  · obtain ⟨y, rfl, hy⟩ := (isSmallByte_iff s).mp hsb
    rw [rlpStr, if_pos hsb]
    show parseStr (y :: rest) = _
    simp only [parseStr]
    rw [if_pos hy]
  · by_cases h55 : s.length ≤ 55
    · rw [rlpStr, if_neg hsb, if_pos h55]
      show parseStr ((0x80 + s.length) :: (s ++ rest)) = _
      simp only [parseStr]
      rw [if_neg (by omega), if_pos (by omega)]
      have hn : 0x80 + s.length - 0x80 = s.length := by omega
      rw [hn, if_pos (by simp), List.take_left, List.drop_left, if_neg hsb]
    · rw [rlpStr, if_neg hsb, if_neg h55]
      have hpos : 0 < s.length := by omega
      have hL1 : 0 < (beBytes s.length).length :=
        List.length_pos.mpr (beBytes_ne_nil hpos)
      have hL8 : (beBytes s.length).length ≤ 8 := beBytes_length_le s.length 8 hlen
      show parseStr ((0xb7 + (beBytes s.length).length) :: (beBytes s.length ++ s ++ rest)) = _
      simp only [parseStr]
      rw [if_neg (by omega), if_neg (by omega), if_pos (by omega)]
      have hll : 0xb7 + (beBytes s.length).length - 0xb7 = (beBytes s.length).length := by
        omega
      rw [hll, List.append_assoc]
      exact parseLong_complete s rest (by omega)

theorem parseStr_sound (input s rest : List Nat) (hv : ∀ x ∈ input, x < 256)
    (h : parseStr input = some (s, rest)) :
    input = rlpStr s ++ rest ∧ s.length < 256 ^ 8 ∧
    (∀ x ∈ s, x < 256) ∧ (∀ x ∈ rest, x < 256) := by
  cases input with
  | nil => exact absurd h (by simp [parseStr])
  | cons b r =>
    have hb : b < 256 := hv b (by simp)
    have hvr : ∀ x ∈ r, x < 256 := fun x hx => hv x (by simp [hx])
    simp only [parseStr] at h
    split_ifs at h with h1 h2 h3 h4 h5
    · simp only [Option.some.injEq, Prod.mk.injEq] at h
      obtain ⟨rfl, rfl⟩ := h
      have hform : rlpStr [b] = [b] := by
        rw [rlpStr, if_pos ((isSmallByte_iff [b]).mpr ⟨b, rfl, h1⟩)]
      rw [hform]
      exact ⟨rfl, by norm_num, fun x hx => by simp at hx; omega, hvr⟩
    · simp only [Option.some.injEq, Prod.mk.injEq] at h
      obtain ⟨rfl, rfl⟩ := h
      have hlen : (r.take (b - 0x80)).length = b - 0x80 := by
        rw [List.length_take]
        exact Nat.min_eq_left h3
      have hform : rlpStr (r.take (b - 0x80)) = b :: r.take (b - 0x80) := by
        rw [rlpStr, if_neg h4, if_pos (by omega)]
        rw [hlen, show 0x80 + (b - 0x80) = b by omega]
      refine ⟨?_, by rw [hlen]; omega,
        fun x hx => hvr x (List.take_subset _ r hx),
        fun x hx => hvr x (List.drop_subset _ r hx)⟩
      rw [hform]
      simp [List.take_append_drop]
    · obtain ⟨hr, hll, h56⟩ := parseLong_sound (b - 0xb7) r s rest hvr h
      have hsb : isSmallByte s = false := isSmallByte_false_of_long (by omega)
      have hform : rlpStr s = b :: (beBytes s.length ++ s) := by
        rw [rlpStr, if_neg (by rw [hsb]; simp), if_neg (by omega), hll,
          show 0xb7 + (b - 0xb7) = b by omega]
      have hslt : s.length < 256 ^ 8 := by
        calc s.length < 256 ^ (beBytes s.length).length := beBytes_lt_pow s.length
          _ ≤ 256 ^ 8 := Nat.pow_le_pow_right (by norm_num) (by omega)
      refine ⟨?_, hslt, ?_, ?_⟩
      · rw [hform, hr]
        simp
      · intro x hx
        exact hvr x (by rw [hr]; simp [hx])
      · intro x hx
        exact hvr x (by rw [hr]; simp [hx])

theorem parseList_complete (p rest : List Nat) :
    parseList (rlpList p ++ rest) = some (p, rest) := by
  by_cases h55 : p.length ≤ 55
  · rw [rlpList, if_pos h55]
    show parseList ((0xc0 + p.length) :: (p ++ rest)) = _
    simp only [parseList]
    rw [if_neg (by omega), if_pos (by omega)]
    have hn : 0xc0 + p.length - 0xc0 = p.length := by omega
    rw [hn, if_pos (by simp), List.take_left, List.drop_left]
  · rw [rlpList, if_neg h55]
    have hpos : 0 < p.length := by omega
    have hL1 : 0 < (beBytes p.length).length :=
      List.length_pos.mpr (beBytes_ne_nil hpos)
    show parseList ((0xf7 + (beBytes p.length).length) :: (beBytes p.length ++ p ++ rest)) = _
    simp only [parseList]
    rw [if_neg (by omega), if_neg (by omega)]
    have hll : 0xf7 + (beBytes p.length).length - 0xf7 = (beBytes p.length).length := by
      omega
    rw [hll, List.append_assoc]
    exact parseLong_complete p rest (by omega)

theorem parseList_sound (input s rest : List Nat) (hv : ∀ x ∈ input, x < 256)
    (h : parseList input = some (s, rest)) :
    input = rlpList s ++ rest ∧ (∀ x ∈ s, x < 256) ∧ (∀ x ∈ rest, x < 256) := by
  cases input with
  | nil => exact absurd h (by simp [parseList])
  | cons b r =>
    have hb : b < 256 := hv b (by simp)
    have hvr : ∀ x ∈ r, x < 256 := fun x hx => hv x (by simp [hx])
    simp only [parseList] at h
    split_ifs at h with h1 h2 h3
    · simp only [Option.some.injEq, Prod.mk.injEq] at h
      obtain ⟨rfl, rfl⟩ := h
      have hlen : (r.take (b - 0xc0)).length = b - 0xc0 := by
        rw [List.length_take]
        exact Nat.min_eq_left h3
      have hform : rlpList (r.take (b - 0xc0)) = b :: r.take (b - 0xc0) := by
        rw [rlpList, if_pos (by omega)]
        rw [hlen, show 0xc0 + (b - 0xc0) = b by omega]
      refine ⟨?_, fun x hx => hvr x (List.take_subset _ r hx),
        fun x hx => hvr x (List.drop_subset _ r hx)⟩
      rw [hform]
      simp [List.take_append_drop]
    · obtain ⟨hr, hll, h56⟩ := parseLong_sound (b - 0xf7) r s rest hvr h
      have hform : rlpList s = b :: (beBytes s.length ++ s) := by
        rw [rlpList, if_neg (by omega), hll, show 0xf7 + (b - 0xf7) = b by omega]
      refine ⟨?_, ?_, ?_⟩
      · rw [hform, hr]
        simp
      · intro x hx
        exact hvr x (by rw [hr]; simp [hx])
      · intro x hx
        exact hvr x (by rw [hr]; simp [hx])

theorem parseUint_complete (code : Nat) (h : code < 256 ^ 8) :
    parseUintContent (beBytes code) = some code := by
  unfold parseUintContent
  rcases Nat.eq_zero_or_pos code with rfl | hpos
  · simp [beBytes, beBytesF, fromBE]
  · rw [if_neg (beBytes_head?_ne_zero code hpos),
      if_pos (beBytes_length_le code 8 h), fromBE_beBytes]

theorem parseUint_sound (c : List Nat) (u : Nat) (hv : ∀ x ∈ c, x < 256)
    (h : parseUintContent c = some u) : c = beBytes u ∧ u < 256 ^ 8 := by
  unfold parseUintContent at h
  split_ifs at h with h1 h2
  simp only [Option.some.injEq] at h
  subst h
  refine ⟨(beBytes_fromBE c hv h1).symm, ?_⟩
  calc fromBE c < 256 ^ c.length := fromBE_lt c hv
    _ ≤ 256 ^ 8 := Nat.pow_le_pow_right (by norm_num) h2

/-! ## Envelope codec -/

theorem guard_some {p : Prop} [Decidable p] (hp : p) : (guard p : Option Unit) = some () := by
  simp [guard, hp]

theorem of_guard_some {p : Prop} [Decidable p] {u : Unit} (h : (guard p : Option Unit) = some u) :
    p := by
  by_cases hp : p
  · exact hp
  · simp [guard, hp] at h

theorem parseStr_complete_nil (s : List Nat) (hlen : s.length < 256 ^ 8) :
    parseStr (rlpStr s) = some (s, []) := by
  have := parseStr_complete s [] hlen
  simpa using this

theorem decodeFields_complete (m : Message) (hm : ValidMessage m) :
    decodeFields (encodeFields m) = some m := by
  obtain ⟨hh32, hhb, hc, hmb, hml, ha20, hab, hsb2, hsl, hcb, hcl⟩ := hm
  have e64 : (2 : Nat) ^ 64 = 256 ^ 8 := by norm_num
  rw [e64] at hc hml hsl hcl
  have hcode8 : (beBytes m.Code).length < 256 ^ 8 := by
    have := beBytes_length_le m.Code 8 hc
    omega
  simp only [decodeFields, encodeFields, Option.bind_eq_bind]
  rw [parseStr_complete m.Hash _ (by omega)]
  simp only [Option.some_bind]
  rw [guard_some hh32]
  simp only [Option.some_bind]
  rw [parseStr_complete (beBytes m.Code) _ hcode8]
  simp only [Option.some_bind]
  rw [parseUint_complete m.Code hc]
  simp only [Option.some_bind]
  rw [parseStr_complete m.Msg _ hml]
  simp only [Option.some_bind]
  rw [parseStr_complete m.Address _ (by omega)]
  simp only [Option.some_bind]
  rw [guard_some ha20]
  simp only [Option.some_bind]
  rw [parseStr_complete m.Signature _ hsl]
  simp only [Option.some_bind]
  rw [parseStr_complete_nil m.CommittedSeal hcl]
  simp only [Option.some_bind]
  rw [guard_some trivial]
  rfl

theorem decodeFields_sound (p : List Nat) (m : Message) (hv : ∀ x ∈ p, x < 256)
    (h : decodeFields p = some m) : p = encodeFields m ∧ ValidMessage m := by
  simp only [decodeFields, Option.bind_eq_bind, Option.bind_eq_some] at h
  obtain ⟨⟨hash, p1⟩, hp1, h⟩ := h
  obtain ⟨u1, hg1, h⟩ := h
  obtain ⟨⟨codeB, p2⟩, hp2, h⟩ := h
  obtain ⟨code, hcode, h⟩ := h
  obtain ⟨⟨msg, p3⟩, hp3, h⟩ := h
  obtain ⟨⟨addr, p4⟩, hp4, h⟩ := h
  obtain ⟨u2, hg2, h⟩ := h
  obtain ⟨⟨sig, p5⟩, hp5, h⟩ := h
  obtain ⟨⟨cs, p6⟩, hp6, h⟩ := h
  obtain ⟨u3, hg3, h⟩ := h
  have hh32 := of_guard_some hg1
  have ha20 := of_guard_some hg2
  have hp6nil : p6 = [] := of_guard_some hg3
  have hm : m = ⟨hash, code, msg, addr, sig, cs⟩ := by
    simpa [pure] using h.symm
  subst hm hp6nil
  obtain ⟨he1, _, hv1, hr1⟩ := parseStr_sound p hash p1 hv hp1
  obtain ⟨he2, _, hv2, hr2⟩ := parseStr_sound p1 codeB p2 hr1 hp2
  obtain ⟨hcodeB, hcode8⟩ := parseUint_sound codeB code hv2 hcode
  obtain ⟨he3, hl3, hv3, hr3⟩ := parseStr_sound p2 msg p3 hr2 hp3
  obtain ⟨he4, _, hv4, hr4⟩ := parseStr_sound p3 addr p4 hr3 hp4
  obtain ⟨he5, hl5, hv5, hr5⟩ := parseStr_sound p4 sig p5 hr4 hp5
  obtain ⟨he6, hl6, hv6, hr6⟩ := parseStr_sound p5 cs [] hr5 hp6
  have e64 : (2 : Nat) ^ 64 = 256 ^ 8 := by norm_num
  constructor
  · rw [he1, he2, he3, he4, he5, he6, hcodeB]
    simp [encodeFields]
  · exact ⟨hh32, hv1, by rw [e64]; exact hcode8, hv3, by rw [e64]; exact hl3,
      ha20, hv4, hv5, by rw [e64]; exact hl5, hv6, by rw [e64]; exact hl6⟩

theorem encode_decode_roundtrip (m : Message) (hm : ValidMessage m) :
    decodeMsgBytes (EncodeRLP m) = some m := by
  unfold decodeMsgBytes DecodeRLP EncodeRLP
  rw [show rlpList (encodeFields m) = rlpList (encodeFields m) ++ [] by simp,
    parseList_complete]
  simp [decodeFields_complete m hm]

theorem decode_sound (b : List Nat) (m : Message) (hv : ∀ x ∈ b, x < 256)
    (h : decodeMsgBytes b = some m) : b = EncodeRLP m ∧ ValidMessage m := by
  unfold decodeMsgBytes at h
  split at h
  next m1 rest heq =>
    by_cases hrest : rest = []
    · rw [if_pos hrest] at h
      simp only [Option.some.injEq] at h
      subst h
      subst hrest
      unfold DecodeRLP at heq
      split at heq
      next hp => exact absurd heq (by simp)
      next payload rest0 hp =>
        split at heq
        next hf => exact absurd heq (by simp)
        next m2 hf =>
          simp only [Option.some.injEq, Prod.mk.injEq] at heq
          obtain ⟨hm2, hrest0⟩ := heq
          rw [hrest0] at hp
          obtain ⟨hb1, hvp, _⟩ := parseList_sound b payload [] hv hp
          obtain ⟨hpe, hvm⟩ := decodeFields_sound payload m2 hvp hf
          rw [← hm2]
          refine ⟨?_, hvm⟩
          rw [hb1, hpe]
          simp [EncodeRLP]
    · rw [if_neg hrest] at h
      exact absurd h (by simp)
  next heq => exact absurd h (by simp)

/-! ## Inner payload decoding -/

theorem parseView_complete (v : View) (rest : List Nat) (hv : ValidView v) :
    parseView (encodeView v ++ rest) = some (v, rest) := by
  obtain ⟨hs, hr⟩ := hv
  have e64 : (2 : Nat) ^ 64 = 256 ^ 8 := by norm_num
  rw [e64] at hs hr
  have hs8 : (beBytes v.Sequence).length < 256 ^ 8 := by
    have := beBytes_length_le v.Sequence 8 hs
    omega
  have hr8 : (beBytes v.Round).length < 256 ^ 8 := by
    have := beBytes_length_le v.Round 8 hr
    omega
  simp only [parseView, encodeView, Option.bind_eq_bind]
  rw [parseList_complete]
  simp only [Option.some_bind]
  rw [parseStr_complete (beBytes v.Sequence) _ hs8]
  simp only [Option.some_bind]
  rw [parseUint_complete v.Sequence hs]
  simp only [Option.some_bind]
  rw [parseStr_complete_nil (beBytes v.Round) hr8]
  simp only [Option.some_bind]
  rw [parseUint_complete v.Round hr]
  simp only [Option.some_bind]
  rw [guard_some trivial]
  rfl

theorem decodePreprepare_complete (p : Preprepare) (hp : ValidPreprepare p) :
    decodePreprepare (encodePreprepare p) = some p := by
  obtain ⟨hv, hpb, hpl⟩ := hp
  have e64 : (2 : Nat) ^ 64 = 256 ^ 8 := by norm_num
  simp only [decodePreprepare, encodePreprepare, Option.bind_eq_bind]
  rw [show rlpList (encodeView p.View ++ rlpStr p.Proposal) =
    rlpList (encodeView p.View ++ rlpStr p.Proposal) ++ [] by simp, parseList_complete]
  simp only [Option.some_bind]
  rw [guard_some trivial]
  simp only [Option.some_bind]
  rw [parseView_complete p.View _ hv]
  simp only [Option.some_bind]
  rw [parseStr_complete_nil p.Proposal (by rw [← e64]; exact hpl)]
  simp only [Option.some_bind]
  rw [guard_some trivial]
  rfl

theorem decodeSubject_complete (s : Subject) (hs : ValidSubject s) :
    decodeSubject (encodeSubject s) = some s := by
  obtain ⟨hv, hdb, hdl⟩ := hs
  simp only [decodeSubject, encodeSubject, Option.bind_eq_bind]
  rw [show rlpList (encodeView s.View ++ rlpStr s.Digest) =
    rlpList (encodeView s.View ++ rlpStr s.Digest) ++ [] by simp, parseList_complete]
  simp only [Option.some_bind]
  rw [guard_some trivial]
  simp only [Option.some_bind]
  rw [parseView_complete s.View _ hv]
  simp only [Option.some_bind]
  rw [parseStr_complete_nil s.Digest (by rw [hdl]; norm_num)]
  simp only [Option.some_bind]
  rw [guard_some hdl]
  simp only [Option.some_bind]
  rw [guard_some trivial]
  rfl

/-! ## Claims -/

/-- C1 (counterexample): two envelopes identical except for `CommittedSeal`
whose `PayloadNoSig` outputs differ — the signing payload does vary with the
committed seal, because `PayloadNoSig` clears `Signature`, not
`CommittedSeal`. -/
theorem payloadNoSig_varies_with_committedSeal :
    (mseal0.Hash = mseal1.Hash ∧ mseal0.Code = mseal1.Code ∧ mseal0.Msg = mseal1.Msg ∧
      mseal0.Address = mseal1.Address ∧ mseal0.Signature = mseal1.Signature ∧
      mseal0.CommittedSeal ≠ mseal1.CommittedSeal) ∧
    PayloadNoSig mseal0 ≠ PayloadNoSig mseal1 := by
  decide

/-- C1 (amended): the signing payload is computed with `Signature` treated
as empty, so it never varies with `Signature`: two envelopes identical
except for their `Signature` field produce identical `PayloadNoSig` bytes. -/
theorem payloadNoSig_ignores_signature (m1 m2 : Message)
    (hH : m1.Hash = m2.Hash) (hC : m1.Code = m2.Code) (hM : m1.Msg = m2.Msg)
    (hA : m1.Address = m2.Address) (hS : m1.CommittedSeal = m2.CommittedSeal) :
    PayloadNoSig m1 = PayloadNoSig m2 := by
  unfold PayloadNoSig
  rw [hH, hC, hM, hA, hS]

/-- C1 (witness): the amended claim at two concrete envelopes differing
only in `Signature`. -/
theorem payloadNoSig_ignores_signature_witness :
    msig0.Signature ≠ msig1.Signature ∧ PayloadNoSig msig0 = PayloadNoSig msig1 :=
  ⟨by decide, payloadNoSig_ignores_signature msig0 msig1 rfl rfl rfl rfl rfl⟩

/-- C2: decoding the bytes produced by encoding any valid envelope yields
exactly that envelope. -/
theorem decode_encode_id (m : Message) (hm : ValidMessage m) :
    decodeMsgBytes (EncodeRLP m) = some m :=
  encode_decode_roundtrip m hm

/-- C2 (witness): the round trip at a concrete envelope. -/
theorem decode_encode_id_witness :
    ValidMessage mex ∧ decodeMsgBytes (EncodeRLP mex) = some mex :=
  ⟨by decide, decode_encode_id mex (by decide)⟩

/-- C3: with a callback, `FromPayload` fails with `errInvalidSigner` exactly
when the bytes decode and the callback recovers, over the signing payload,
an address different from the decoded sender; with no callback, success is
exactly successful decoding. -/
theorem fromPayload_invalidSigner_iff :
    ∀ (m0 : Message) (b : List Nat)
      (f : List Nat → List Nat → Except VerifyError (List Nat)),
      ((FromPayload m0 b (some f)).1 = .error .errInvalidSigner ↔
        ∃ m a, decodeMsgBytes b = some m ∧
          f (PayloadNoSig m) m.Signature = .ok a ∧ a ≠ m.Address) ∧
      ((FromPayload m0 b none).1 = .ok () ↔ ∃ m, decodeMsgBytes b = some m) := by
  intro m0 b f
  constructor
  · unfold FromPayload
    cases hdec : decodeMsgBytes b with
    | none => simp
    | some m =>
      cases hf : f (PayloadNoSig m) m.Signature with
      | error e => simp [hf]
      | ok a =>
        by_cases ha : a = m.Address
        · simp [hf, ha]
        · simp [hf, ha]
  · unfold FromPayload
    cases hdec : decodeMsgBytes b with
    | none => simp
    | some m => simp

/-- C4: `GetView` dispatches on `Code`: code 0 decodes the inner payload as
a `Preprepare` and returns its view; codes 1, 2, 3 decode it as a `Subject`
and return its view; any other code fails with `errInvalidMessage`. -/
theorem getView_dispatch :
    (∀ (m : Message) (p : Preprepare), ValidPreprepare p → m.Code = msgPreprepare →
      m.Msg = encodePreprepare p → GetView m = .ok p.View) ∧
    (∀ (m : Message) (s : Subject), ValidSubject s →
      (m.Code = msgPrepare ∨ m.Code = msgCommit ∨ m.Code = msgRoundChange) →
      m.Msg = encodeSubject s → GetView m = .ok s.View) ∧
    (∀ m : Message, m.Code ≠ msgPreprepare → m.Code ≠ msgPrepare →
      m.Code ≠ msgCommit → m.Code ≠ msgRoundChange →
      GetView m = .error .errInvalidMessage) := by
  refine ⟨?_, ?_, ?_⟩
  · intro m p hp hc hmsg
    unfold GetView
    rw [if_pos hc, hmsg, decodePreprepare_complete p hp]
  · intro m s hs hc hmsg
    have hc0 : ¬ m.Code = msgPreprepare := by
      unfold msgPreprepare msgPrepare msgCommit msgRoundChange at *
      rcases hc with h | h | h <;> omega
    unfold GetView
    rw [if_neg hc0, if_pos hc, hmsg, decodeSubject_complete s hs]
  · intro m h0 h1 h2 h3
    unfold GetView
    rw [if_neg h0, if_neg (by rintro (h | h | h) <;> simp_all)]

/-- C4 (witness): the three dispatch branches at concrete messages with
codes 0, 2 and 99. -/
theorem getView_dispatch_witness :
    GetView ⟨hash0, 0, encodePreprepare pex, addr0, [], []⟩ = .ok vex ∧
    GetView ⟨hash0, 2, encodeSubject sex, addr0, [], []⟩ = .ok vex ∧
    GetView ⟨hash0, 99, [], addr0, [], []⟩ = .error .errInvalidMessage :=
  ⟨getView_dispatch.1 _ pex (by decide) rfl rfl,
   getView_dispatch.2.1 _ sex (by decide) (Or.inr (Or.inl rfl)) rfl,
   getView_dispatch.2.2 _ (by decide) (by decide) (by decide) (by decide)⟩

/-- C5: over the four phases in declared order, `State.Cmp` returns -1
below the diagonal argument order, 0 on the diagonal, and +1 above it. -/
theorem state_cmp_total_order :
    ∀ i j : Fin 4, State.Cmp (phases i) (phases j) =
      if (i : Nat) < (j : Nat) then -1 else if i = j then 0 else 1 := by
  decide

/-- C6: on valid envelopes the encoding is deterministic and faithful to
all six fields — two envelopes have equal `EncodeRLP` bytes exactly when
they are equal. -/
theorem encodeRLP_deterministic_injective (m1 m2 : Message)
    (h1 : ValidMessage m1) (h2 : ValidMessage m2) :
    EncodeRLP m1 = EncodeRLP m2 ↔ m1 = m2 := by
  constructor
  · intro he
    have r1 := encode_decode_roundtrip m1 h1
    have r2 := encode_decode_roundtrip m2 h2
    rw [he, r2] at r1
    exact (Option.some.inj r1).symm
  · intro h
    rw [h]

/-- C6 (witness): the equivalence at a concrete valid envelope. -/
theorem encodeRLP_deterministic_injective_witness :
    ValidMessage mex ∧ (EncodeRLP mex = EncodeRLP mex ↔ mex = mex) :=
  ⟨by decide, encodeRLP_deterministic_injective mex mex (by decide) (by decide)⟩

/-- C7: the decoder accepts only exact well-formed encodings: whenever a
byte input decodes successfully, it is precisely the encoding of the
resulting (valid) envelope — so truncated or otherwise malformed input
fails, and no partially populated envelope is returned. -/
theorem decode_rejects_malformed (b : List Nat) (m : Message)
    (hv : ValidBytes b) (h : decodeMsgBytes b = some m) :
    b = EncodeRLP m ∧ ValidMessage m :=
  decode_sound b m hv h

/-- C7 (witness): the soundness statement at a concrete successful decode. -/
theorem decode_rejects_malformed_witness :
    ValidBytes (EncodeRLP mex) ∧ decodeMsgBytes (EncodeRLP mex) = some mex ∧
    EncodeRLP mex = EncodeRLP mex ∧ ValidMessage mex :=
  ⟨by decide, by decide, decode_rejects_malformed (EncodeRLP mex) mex (by decide) (by decide)⟩

/-- C8: `PayloadNoSig` never mutates its receiver: the state-passing form
returns the receiver unchanged alongside the signing payload. -/
theorem payloadNoSigSt_frame :
    ∀ m : Message, (PayloadNoSigSt m).2 = m ∧ (PayloadNoSigSt m).1 = PayloadNoSig m :=
  fun _ => ⟨rfl, rfl⟩

/-- C9: `FromPayload` is not atomic on authentication failure: when the
bytes decode but the signer check fails, the returned receiver state is the
decoded envelope, for every pre-call receiver state. -/
theorem fromPayload_overwrites_receiver_on_invalid_signer
    (m0 m : Message) (b a : List Nat)
    (f : List Nat → List Nat → Except VerifyError (List Nat))
    (hdec : decodeMsgBytes b = some m)
    (hf : f (PayloadNoSig m) m.Signature = .ok a)
    (hne : a ≠ m.Address) :
    FromPayload m0 b (some f) = (.error .errInvalidSigner, m) := by
  unfold FromPayload
  rw [hdec]
  simp [hf, hne]

/-- C9 (witness): a zeroed receiver is overwritten with the decoded
envelope even though `FromPayload` reports `errInvalidSigner`. -/
theorem fromPayload_overwrites_receiver_on_invalid_signer_witness :
    decodeMsgBytes (EncodeRLP mex) = some mex ∧ zeroMsg ≠ mex ∧
    FromPayload zeroMsg (EncodeRLP mex) (some badVerify) =
      (.error .errInvalidSigner, mex) :=
  ⟨by decide, by decide,
    fromPayload_overwrites_receiver_on_invalid_signer zeroMsg mex (EncodeRLP mex)
      (List.replicate 20 9) badVerify (by decide) rfl (by decide)⟩

/-- C10: below the Kore hard fork `EffectiveParamSet` is exactly the
defaults overlaid with the header-governance partial parameters; the
contract-governance parameters are overlaid, after those, only under the
fork. -/
theorem effectiveParamSet_kore_dispatch (gm : GovModule) (n : Nat) :
    (gm.isKoreHF n = false →
      gm.EffectiveParamSet n =
        overlayParams GetDefaultGovernanceParamSet (gm.Hgm.PartialParams n)) ∧
    (gm.isKoreHF n = true →
      gm.EffectiveParamSet n =
        overlayParams (overlayParams GetDefaultGovernanceParamSet
          (gm.Hgm.PartialParams n)) (gm.Cgm.PartialParams n)) := by
  constructor
  · intro h
    unfold GovModule.EffectiveParamSet overlayParams
    rw [h]
    simp
  · intro h
    unfold GovModule.EffectiveParamSet overlayParams
    rw [h]
    simp

/-- C10 (witness): both branches at a concrete module whose fork activates
at block 100. -/
theorem effectiveParamSet_kore_dispatch_witness :
    gm0.isKoreHF 3 = false ∧ gm0.isKoreHF 100 = true ∧
    gm0.EffectiveParamSet 3 =
      overlayParams GetDefaultGovernanceParamSet (gm0.Hgm.PartialParams 3) ∧
    gm0.EffectiveParamSet 100 =
      overlayParams (overlayParams GetDefaultGovernanceParamSet
        (gm0.Hgm.PartialParams 100)) (gm0.Cgm.PartialParams 100) :=
  ⟨by decide, by decide, (effectiveParamSet_kore_dispatch gm0 3).1 (by decide),
    (effectiveParamSet_kore_dispatch gm0 100).2 (by decide)⟩
